import Mathlib

/-!
Verification of the opencc-go core (dictionary matching, lexicon parsing,
forward-maximum-match segmentation, conversion chain).

Go strings are byte strings; we embed them as `List Nat` (one `Nat` per byte).
Go's string comparison `<` / `>=` is bytewise lexicographic, which coincides
with the lexicographic `LinearOrder` on `List Nat` (shorter proper prefixes
compare less).  Fallible operations (Go runtime panics such as
slice-out-of-range) are embedded as `Option`, with `none` for a panic.
-/

namespace OpenCCGo

/-- Go `string`, viewed as its byte sequence. -/
abbrev Str := List Nat

/-! ### DictEntry (src/unnamed/part_003)

The Go source has three concrete entry types behind the `DictEntry`
interface: `NoValueDictEntry`, `StrSingleValueDictEntry`,
`StrMultiValueDictEntry`.  We embed the interface as a sum type. -/

inductive DictEntry : Type where
  | noValue (key : Str)
  | single (key value : Str)
  | multi (key : Str) (values : List Str)
deriving DecidableEq, Repr

namespace DictEntry

/-- Go `Key()`, per concrete type. -/
def Key : DictEntry → Str
  | noValue k => k
  | single k _ => k
  | multi k _ => k

/-- Go `Values()`, per concrete type. -/
def Values : DictEntry → List Str
  | noValue _ => []
  | single _ v => [v]
  | multi _ vs => vs

/-- Go `GetDefault()`: `NoValueDictEntry` returns the key itself;
`StrSingleValueDictEntry` returns its value; `StrMultiValueDictEntry`
returns `values[0]` if non-empty, else the key. -/
def GetDefault : DictEntry → Str
  | noValue k => k
  | single _ v => v
  | multi k vs =>
    match vs with
    | [] => k
    | v :: _ => v

/-- Go `NumValues()`, per concrete type. -/
def NumValues : DictEntry → Nat
  | noValue _ => 0
  | single _ _ => 1
  | multi _ vs => vs.length

/-- Go `KeyLength()`: the byte length of the key (each concrete type
returns `len(e.key)`). -/
def KeyLength (e : DictEntry) : Nat := e.Key.length

end DictEntry

/-- Go `DictEntryFactory.NewMulti` (src/unnamed/part_003): zero values
gives a `NoValueDictEntry`, one value a `StrSingleValueDictEntry`, and
otherwise a `StrMultiValueDictEntry`. -/
def NewMulti (key : Str) (values : List Str) : DictEntry :=
  match values with
  | [] => .noValue key
  | [v] => .single key v
  | vs => .multi key vs

/-! ### sort.Search (Go standard library, as called by TextDict)

`sort.Search(n, f)` runs the binary search below and, for a predicate
that is monotone on `[0, n)`, returns the least `i < n` with `f i`,
or `n` when there is none. -/

/-- The loop of Go's `sort.Search`: invariant `i ≤ j`; probes
`h := (i+j)/2`, moving `i` past `h` when `f h` is false and `j` down to
`h` otherwise.  The loop makes at most `j - i` iterations (the gap
strictly shrinks every round), so running it on a fuel of at least
`j - i` computes exactly the Go loop; `sortSearch` below passes fuel `n`.
The fuel keeps the definition structurally recursive, hence computable by
the kernel. -/
def sortSearchGo (f : Nat → Bool) : Nat → Nat → Nat → Nat
  | 0, i, _ => i
  | fuel + 1, i, j =>
    if i < j then
      if f ((i + j) / 2) then sortSearchGo f fuel i ((i + j) / 2)
      else sortSearchGo f fuel ((i + j) / 2 + 1) j
    else i

/-- Go `sort.Search(n, f)`. -/
def sortSearch (n : Nat) (f : Nat → Bool) : Nat := sortSearchGo f n 0 n

/-! ### TextDict (src/unnamed/part_004)

`TextDict` wraps a lexicon (a `[]DictEntry`, embedded as `List DictEntry`)
plus the cached maximum key byte-length. -/

/-- The key read at index `i` by the binary-search predicate
`d.lexicon.At(i).Key() >= word`; out-of-range indices are never probed by
`sort.Search`. -/
def keyAt (l : List DictEntry) (i : Nat) : Str :=
  match l[i]? with
  | some e => e.Key
  | none => []

structure TextDict : Type where
  maxLength : Nat
  lexicon : List DictEntry
deriving Repr

/-- Go `NewTextDict`: scans the lexicon, caching the maximum `KeyLength()`. -/
def NewTextDict (lexicon : List DictEntry) : TextDict :=
  { maxLength := lexicon.foldl (fun m e => if e.KeyLength > m then e.KeyLength else m) 0
    lexicon := lexicon }

/-- Go `TextDict.KeyMaxLength`. -/
def TextDict.KeyMaxLength (d : TextDict) : Nat := d.maxLength

/-- Go `TextDict.Match`: `sort.Search` for the first key `>= word`, then an
equality check (`idx < Len && At(idx).Key() == word`). -/
def TextDict.Match (d : TextDict) (word : Str) : Option DictEntry :=
  match d.lexicon[sortSearch d.lexicon.length (fun i => decide (word ≤ keyAt d.lexicon i))]? with
  | some e => if e.Key = word then some e else none
  | none => none

/-- The precondition required of a lexicon handed to `NewTextDict`
(`Lexicon.IsSorted` and `Lexicon.IsUnique` both hold): keys strictly
increase, i.e. the lexicon is sorted by key and duplicate-free. -/
def SortedUnique (l : List DictEntry) : Prop :=
  l.Pairwise (fun a b => a.Key < b.Key)

instance (l : List DictEntry) : Decidable (SortedUnique l) :=
  inferInstanceAs (Decidable (l.Pairwise _))

/-! ### TextDict.MatchPrefix (src/unnamed/part_004, lines 130-147)

The Go method name cannot be used as a Lean identifier here, so the
embedding is called `MatchPfx`.  The Go body tries candidate lengths
`l := min(len(word), d.maxLength)` down to `1`; for each it runs, inlined,
exactly the binary search that `Match` runs on `word[:l]` and returns the
first hit. -/

def TextDict.matchPfxLoop (d : TextDict) (word : Str) : Nat → Option DictEntry
  | 0 => none
  | l + 1 =>
    match d.Match (word.take (l + 1)) with
    | some e => some e
    | none => d.matchPfxLoop word l

/-- Go `TextDict.MatchPrefix`. -/
def TextDict.MatchPfx (d : TextDict) (word : Str) : Option DictEntry :=
  d.matchPfxLoop word (min word.length d.maxLength)

/-- Two-entry lexicon with keys "a", "b" (bytes 97, 98). -/
def lexAB : List DictEntry := [.single [97] [65], .single [98] [66]]

/-- Three-entry lexicon with keys "a", "aa", "aab". -/
def lexPfx : List DictEntry :=
  [.single [97] [65], .single [97, 97] [66], .single [97, 97, 98] [67]]

/-! ### DictGroup.MatchPrefix (src/pkg/dict/dict_group.go, lines 47-61)

A `DictGroup` holds an ordered `[]Dict`; the claims instantiate the
members as `TextDict`s, so the group is embedded as `List TextDict`.
`MatchPrefix` linearly scans the members keeping the entry whose
`KeyLength()` is strictly greater than the best so far. -/

def DictGroup.matchPfxFold (word : Str) :
    List TextDict → Option DictEntry × Nat → Option DictEntry × Nat
  | [], best => best
  | d :: ds, best =>
    DictGroup.matchPfxFold word ds
      (match d.MatchPfx word with
       | some e => if e.KeyLength > best.2 then (some e, e.KeyLength) else best
       | none => best)

/-- Go `DictGroup.MatchPrefix`: `bestEntry, bestLen := nil, 0`, then the
scan above; returns `bestEntry`. -/
def DictGroup.MatchPfx (ds : List TextDict) (word : Str) : Option DictEntry :=
  (DictGroup.matchPfxFold word ds (none, 0)).1

/-- Member dictionary A: key "a" with value "1". -/
def dictA : TextDict := NewTextDict [DictEntry.single [97] [49]]

/-- Member dictionary B: keys "a" (value "2") and "ab" (value "3"). -/
def dictB : TextDict := NewTextDict [DictEntry.single [97] [50], DictEntry.single [97, 98] [51]]

/-! ### Conversion (src/pkg/conversion/conversion.go, lines 38-49) -/

/-- Go `Conversion.Convert`: an empty phrase returns immediately; otherwise
an exact dictionary match substitutes the matched entry's `GetDefault()`,
and a miss returns the phrase unchanged.  The Go function returns plain
`string` — there is no error path — so the embedding is total. -/
def Conversion.Convert (d : TextDict) (phrase : Str) : Str :=
  if phrase.length = 0 then phrase
  else
    match d.Match phrase with
    | some e => e.GetDefault
    | none => phrase

/-! ### Lexicon line parsing (src/pkg/dict/lexicon.go, lines 137-186)

`ParseLexiconFromReader` reads the input line by line; each line is
processed independently (strip trailing CR/LF, skip blanks and comments,
split at the first tab with `strings.SplitN(line, "\t", 2)`, split the
remainder with `strings.Fields`, build the entry with
`EntryFactory.NewMulti`).  The embedding below captures the processing of
one line; `none` means the line is skipped.

`strings.Fields` splits on runs of `unicode.IsSpace` runes.  On the byte
level this is the ASCII set {TAB, LF, VT, FF, CR, SP}; the non-ASCII space
runes that `unicode.IsSpace` also accepts (U+0085, U+00A0, U+1680,
U+2000..U+200A, U+2028, U+2029, U+202F, U+205F, U+3000) are multi-byte
UTF-8 sequences outside this byte-level model, and the theorems below
exclude them by hypothesis. -/

/-- ASCII fragment of Go `unicode.IsSpace`, as used by `strings.Fields`. -/
def isSpaceByte (b : Nat) : Bool :=
  b = 9 || b = 10 || b = 11 || b = 12 || b = 13 || b = 32

/-- Accumulator pass of `strings.Fields` (ASCII whitespace): `acc` holds
the bytes of the current token in reverse. -/
def fieldsGoAux : Str → Str → List Str
  | acc, [] => if acc.isEmpty then [] else [acc.reverse]
  | acc, b :: rest =>
    if isSpaceByte b then
      if acc.isEmpty then fieldsGoAux [] rest
      else acc.reverse :: fieldsGoAux [] rest
    else fieldsGoAux (b :: acc) rest

/-- Go `strings.Fields` on the ASCII-whitespace byte level. -/
def fieldsGo (l : Str) : List Str := fieldsGoAux [] l

/-- Go `strings.TrimRight(line, "\r\n")`: remove trailing CR/LF bytes. -/
def trimRightCRLF (l : Str) : Str :=
  (l.reverse.dropWhile (fun b => b == 13 || b == 10)).reverse

/-- Go `strings.SplitN(line, "\t", 2)`: the part before the first tab,
and — when a tab is present — the untouched remainder after it. -/
def splitFirstTab (l : Str) : Str × Option Str :=
  let pre := l.takeWhile (fun b => b != 9)
  if pre.length = l.length then (l, none)
  else (pre, some (l.drop (pre.length + 1)))

/-- One line of `ParseLexiconFromReader`: strip trailing CR/LF; skip empty
lines and lines starting with '#' (byte 35); otherwise split at the first
tab into key and rest, split the rest into whitespace-separated value
tokens, and build the entry through `EntryFactory.NewMulti`.  Per-line
processing is total — no line can fail to parse. -/
def parseLexiconLine (line : Str) : Option DictEntry :=
  match trimRightCRLF line with
  | [] => none
  | b :: r =>
    if b = 35 then none
    else
      match splitFirstTab (b :: r) with
      | (key, none) => some (NewMulti key [])
      | (key, some rest) => some (NewMulti key (fieldsGo rest))

/-- UTF-8 encodings of the non-ASCII runes accepted by `unicode.IsSpace`:
U+0085, U+00A0, U+1680, U+2000..U+200A, U+2028, U+2029, U+202F, U+205F,
U+3000. -/
def nonAsciiSpaceSeqs : List Str :=
  [[194, 133], [194, 160], [225, 154, 128], [226, 128, 128], [226, 128, 129],
   [226, 128, 130], [226, 128, 131], [226, 128, 132], [226, 128, 133],
   [226, 128, 134], [226, 128, 135], [226, 128, 136], [226, 128, 137],
   [226, 128, 138], [226, 128, 168], [226, 128, 169], [226, 128, 175],
   [226, 129, 159], [227, 128, 128]]

/-! ### Segments (src/unnamed/part_006)

`Segments` keeps two backing arrays — `managed` (copied strings) and
`unmanaged` (pointers to external strings; pointer dereference is pure
here, so they are embedded as the strings themselves) — and an index list
mapping each position to `(source, isManaged)`. -/

structure Segments : Type where
  managed : List Str
  unmanaged : List Str
  indexes : List (Nat × Bool)
deriving Repr

/-- Go `NewSegments`. -/
def NewSegments : Segments := ⟨[], [], []⟩

/-- Go `Segments.AddManaged`: records the next managed slot and appends. -/
def Segments.AddManaged (s : Segments) (str : Str) : Segments :=
  { s with
    managed := s.managed ++ [str]
    indexes := s.indexes ++ [(s.managed.length, true)] }

/-- Go `Segments.AddUnmanaged`: records the next unmanaged slot and
appends (the Go code stores `*string`; the pointee is stored here). -/
def Segments.AddUnmanaged (s : Segments) (str : Str) : Segments :=
  { s with
    unmanaged := s.unmanaged ++ [str]
    indexes := s.indexes ++ [(s.unmanaged.length, false)] }

/-- Go `Segments.Length`. -/
def Segments.Length (s : Segments) : Nat := s.indexes.length

/-- Go `Segments.At`: out-of-range positions return ""; in-range positions
read the indicated backing array (in the Go code the source index is
always in range by construction; the embedding returns "" on the
unreachable out-of-range source reads). -/
def Segments.At (s : Segments) (pos : Nat) : Str :=
  match s.indexes[pos]? with
  | some (src, true) => s.managed.getD src []
  | some (src, false) => s.unmanaged.getD src []
  | none => []

/-- The segments visited by the canonical iterator loop
`it := s.Iterator(); for it.Next() { v := it.Value() }`: the
`SegmentsIterator` starts at position -1 and `Next` pre-increments, so the
loop visits positions 0 .. Length-1 in order. -/
def Segments.toList (s : Segments) : List Str :=
  (List.range s.Length).map s.At

/-- Go `Conversion.ConvertSegments` (src/pkg/conversion/conversion.go,
lines 51-63): iterates the input segments, converts each phrase, and
appends every result to a fresh `Segments` with `AddManaged`. -/
def Conversion.ConvertSegments (d : TextDict) (segments : Segments) : Segments :=
  segments.toList.foldl
    (fun result seg => result.AddManaged (Conversion.Convert d seg)) NewSegments

/-- Go `ConversionChain.Convert` (src/pkg/conversion/conversion.go,
lines 82-91): threads the segment sequence through the conversions in
order. -/
def ConversionChain.Convert (chain : List TextDict) (segments : Segments) : Segments :=
  chain.foldl (fun result conversion => Conversion.ConvertSegments conversion result)
    segments

/-- A `Segments` value holding `ys` as managed segments in order — the
shape `ConvertSegments` builds. -/
def mkManaged (ys : List Str) : Segments :=
  ⟨ys, [], (List.range ys.length).map (fun i => (i, true))⟩

/-! ### LexiconIterator (src/pkg/dict/lexicon.go, lines 72-78 and 188-208)

`Lexicon.Iterator()` starts with `index = 0`; `Next()` pre-increments the
index and then reports whether it is still in range; `Value()` reads the
entry at the current index (`Lexicon.At` returns nil out of range,
embedded as `none`). -/

structure LexiconIterator : Type where
  entries : List DictEntry
  index : Nat
deriving Repr

/-- Go `Lexicon.Iterator()`. -/
def Lexicon.Iterator (entries : List DictEntry) : LexiconIterator := ⟨entries, 0⟩

/-- Go `LexiconIterator.Next`: `it.index++; return it.index < it.lexicon.Len()`. -/
def LexiconIterator.Next (it : LexiconIterator) : Bool × LexiconIterator :=
  (decide (it.index + 1 < it.entries.length), ⟨it.entries, it.index + 1⟩)

/-- Go `LexiconIterator.Value`: `it.lexicon.At(it.index)`. -/
def LexiconIterator.Value (it : LexiconIterator) : Option DictEntry :=
  it.entries[it.index]?

/-- The canonical driving loop `for it.Next() { out = append(out, it.Value()) }`,
unfolded on the iterator state.  When `Next` reports true, the advanced
iterator's index is in range, so `Value` is defined (the `none` arm is
unreachable).  The fuel keeps the recursion structural; each `Next` call
increments the index, so `entries.length` iterations always suffice. -/
def LexiconIterator.driveGo : Nat → LexiconIterator → List DictEntry
  | 0, _ => []
  | fuel + 1, it =>
    match it.Next with
    | (true, it') =>
      match it'.Value with
      | some e => e :: LexiconIterator.driveGo fuel it'
      | none => []
    | (false, _) => []

/-- Driving the iterator to exhaustion. -/
def LexiconIterator.drive (it : LexiconIterator) : List DictEntry :=
  LexiconIterator.driveGo it.entries.length it

/-! ### MaxMatchSegmentation (src/pkg/segmentation/segmentation.go)

`Segment` walks a byte position through the text; at each position it
tries the longest dictionary match, and on a miss consumes
`nextUTF8CharLength` bytes (1 when that returns 0) as a copied segment.
The dictionary sits behind Go's `dict.Dict` interface; it is embedded as
its `Match` function plus the cached `KeyMaxLength`. -/

/-- Go `MaxMatchSegmentation.nextUTF8CharLength` (lines 104-125): decides
a character length from the first byte alone.  Note that bytes
0x80..0xDF — including the continuation bytes 0x80..0xBF, which can never
start a UTF-8 character — yield 2, and only bytes ≥ 0xF8 yield 0; no
continuation or bounds validation is performed. -/
def nextUTF8CharLength (text : Str) (position : Nat) : Nat :=
  match text[position]? with
  | none => 0
  | some b =>
    if b < 128 then 1
    else if b < 224 then 2
    else if b < 240 then 3
    else if b < 248 then 4
    else 0

/-- Go `MaxMatchSegmentation.findLongestMatch` (lines 82-102): tries
lengths from `maxLen` down to 1, skipping lengths that overrun the text
(`start+l > len(text)` continues), and returns the first dictionary hit. -/
def findLongestMatch (m : Str → Option DictEntry) (text : Str) (start : Nat) :
    Nat → Option DictEntry
  | 0 => none
  | l + 1 =>
    if start + (l + 1) > text.length then findLongestMatch m text start l
    else
      match m ((text.drop start).take (l + 1)) with
      | some e => some e
      | none => findLongestMatch m text start l

/-- The loop of Go `MaxMatchSegmentation.Segment` (lines 55-77), with the
produced segments as a plain list of strings (`AddUnmanaged` stores the
matched key, `AddManaged` the copied character bytes; either way one
segment per iteration, in order).  `none` models a Go runtime panic: the
character branch slices `text[position : position+charLen]`, which panics
when `position+charLen > len(text)` — `nextUTF8CharLength` never checks
that the announced length fits.  The fuel keeps the recursion structural;
every iteration advances `position` by at least one byte whenever the
dictionary's hits carry truthful keys, so the initial fuel `len(text)`
never runs out (fuel exhaustion, which also yields `none`, is
unreachable from `MaxMatchSegment` below). -/
def segmentLoop (m : Str → Option DictEntry) (maxKeyLen : Nat) (text : Str) :
    Nat → Nat → Option (List Str)
  | 0, position => if position < text.length then none else some []
  | fuel + 1, position =>
    if position < text.length then
      match findLongestMatch m text position maxKeyLen with
      | some e =>
        (segmentLoop m maxKeyLen text fuel (position + e.KeyLength)).map
          (fun rest => e.Key :: rest)
      | none =>
        let charLen0 := nextUTF8CharLength text position
        let charLen := if charLen0 = 0 then 1 else charLen0
        if position + charLen ≤ text.length then
          (segmentLoop m maxKeyLen text fuel (position + charLen)).map
            (fun rest => (text.drop position).take charLen :: rest)
        else none
    else some []

/-- Go `MaxMatchSegmentation.Segment` over a `TextDict` behind the `Dict`
interface: empty text returns the empty segment list immediately,
otherwise the loop runs from position 0. -/
def MaxMatchSegment (d : TextDict) (text : Str) : Option (List Str) :=
  if text.length = 0 then some []
  else segmentLoop d.Match d.KeyMaxLength text text.length 0

/-! ### Theorems -/

theorem sortSearchGo_ge (f : Nat → Bool) :
    ∀ fuel i j : Nat, i ≤ sortSearchGo f fuel i j := by
  intro fuel
  induction fuel with
  | zero => intro i j; exact le_refl i
  | succ fuel ih =>
    intro i j
    show i ≤ (if i < j then
      if f ((i + j) / 2) then sortSearchGo f fuel i ((i + j) / 2)
      else sortSearchGo f fuel ((i + j) / 2 + 1) j else i)
    split
    · split
      · exact ih i ((i + j) / 2)
      · have := ih ((i + j) / 2 + 1) j
        omega
    · exact le_refl i

theorem sortSearchGo_le (f : Nat → Bool) :
    ∀ fuel i j : Nat, i ≤ j → sortSearchGo f fuel i j ≤ j := by
  intro fuel
  induction fuel with
  | zero => intro i j h; exact h
  | succ fuel ih =>
    intro i j hij
    show (if i < j then
      if f ((i + j) / 2) then sortSearchGo f fuel i ((i + j) / 2)
      else sortSearchGo f fuel ((i + j) / 2 + 1) j else i) ≤ j
    split
    · split
      · have := ih i ((i + j) / 2) (by omega)
        omega
      · exact ih ((i + j) / 2 + 1) j (by omega)
    · exact hij

theorem sortSearchGo_found (f : Nat → Bool) :
    ∀ fuel i j : Nat, j - i ≤ fuel → sortSearchGo f fuel i j < j →
      f (sortSearchGo f fuel i j) = true := by
  intro fuel
  induction fuel with
  | zero =>
    intro i j hfi hlt
    exfalso
    have : sortSearchGo f 0 i j = i := rfl
    omega
  | succ fuel ih =>
    intro i j hfi
    simp only [sortSearchGo]
    split
    case isTrue hij =>
      split
      case isTrue hf =>
        intro _
        rcases Nat.lt_or_ge (sortSearchGo f fuel i ((i + j) / 2)) ((i + j) / 2) with h1 | h1
        · exact ih i ((i + j) / 2) (by omega) h1
        · have h2 := sortSearchGo_le f fuel i ((i + j) / 2) (by omega)
          have h3 : sortSearchGo f fuel i ((i + j) / 2) = (i + j) / 2 := by omega
          rw [h3]
          exact hf
      case isFalse hf =>
        intro h1
        exact ih ((i + j) / 2 + 1) j (by omega) h1
    case isFalse hij =>
      intro h1
      omega

theorem sortSearchGo_min (f : Nat → Bool) :
    ∀ fuel i j : Nat, j - i ≤ fuel →
      (∀ a b : Nat, a ≤ b → b < j → f a = true → f b = true) →
      ∀ k : Nat, i ≤ k → k < sortSearchGo f fuel i j → f k = false := by
  intro fuel
  induction fuel with
  | zero =>
    intro i j hfi _ k hik hk
    exfalso
    have : sortSearchGo f 0 i j = i := rfl
    omega
  | succ fuel ih =>
    intro i j hfi hmono k hik
    show k < (if i < j then
      if f ((i + j) / 2) then sortSearchGo f fuel i ((i + j) / 2)
      else sortSearchGo f fuel ((i + j) / 2 + 1) j else i) → _
    split
    case isTrue hij =>
      split
      case isTrue hf =>
        intro hk
        exact ih i ((i + j) / 2) (by omega)
          (fun a b hab hb ha => hmono a b hab (by omega) ha) k hik hk
      case isFalse hf =>
        intro hk
        rcases Nat.lt_or_ge ((i + j) / 2) k with h1 | h1
        · exact ih ((i + j) / 2 + 1) j (by omega) hmono k (by omega) hk
        · cases hfk : f k with
          | false => rfl
          | true =>
            have := hmono k ((i + j) / 2) h1 (by omega) hfk
            simp [this] at hf
    case isFalse hij =>
      intro hk
      omega

/-- `sortSearch n f` never exceeds `n`. -/
theorem sortSearch_le (n : Nat) (f : Nat → Bool) : sortSearch n f ≤ n :=
  sortSearchGo_le f n 0 n (Nat.zero_le n)

/-- When `sortSearch` answers inside the range, the predicate holds there. -/
theorem sortSearch_found (n : Nat) (f : Nat → Bool) (h : sortSearch n f < n) :
    f (sortSearch n f) = true :=
  sortSearchGo_found f n 0 n (by omega) h

/-- For a predicate monotone on `[0, n)`, everything below the answer
fails the predicate. -/
theorem sortSearch_min (n : Nat) (f : Nat → Bool)
    (hmono : ∀ a b : Nat, a ≤ b → b < n → f a = true → f b = true)
    (k : Nat) (hk : k < sortSearch n f) : f k = false :=
  sortSearchGo_min f n 0 n (by omega) hmono k (Nat.zero_le k) hk

theorem maxLength_fold_init (l : List DictEntry) :
    ∀ a : Nat, a ≤ l.foldl (fun m e => if e.KeyLength > m then e.KeyLength else m) a := by
  induction l with
  | nil => intro a; simp
  | cons e l ih =>
    intro a
    simp only [List.foldl_cons]
    by_cases hc : e.KeyLength > a
    · rw [if_pos hc]
      have h1 := ih e.KeyLength
      omega
    · rw [if_neg hc]
      exact ih a

/-- Every key in the lexicon fits within the cached `maxLength`. -/
theorem keyLength_le_maxLength (l : List DictEntry) (e : DictEntry) (he : e ∈ l) :
    e.KeyLength ≤ (NewTextDict l).maxLength := by
  show e.KeyLength ≤ l.foldl (fun m e => if e.KeyLength > m then e.KeyLength else m) 0
  generalize 0 = a
  induction l generalizing a with
  | nil => cases he
  | cons x l ih =>
    rcases List.mem_cons.mp he with rfl | hmem
    · simp only [List.foldl_cons]
      by_cases hc : e.KeyLength > a
      · rw [if_pos hc]
        exact maxLength_fold_init l e.KeyLength
      · rw [if_neg hc]
        have h1 := maxLength_fold_init l a
        omega
    · exact ih hmem _

theorem keyAt_eq_get (l : List DictEntry) (i : Nat) (h : i < l.length) :
    keyAt l i = (l.get ⟨i, h⟩).Key := by
  simp [keyAt, List.getElem?_eq_getElem h]

/-- On a sorted, duplicate-free lexicon the keys are monotone in the index. -/
theorem keyAt_mono (l : List DictEntry) (hs : SortedUnique l)
    (a b : Nat) (hab : a ≤ b) (hb : b < l.length) : keyAt l a ≤ keyAt l b := by
  have ha : a < l.length := Nat.lt_of_le_of_lt hab hb
  rw [keyAt_eq_get l a ha, keyAt_eq_get l b hb]
  rcases Nat.lt_or_ge a b with h1 | h1
  · exact le_of_lt ((List.pairwise_iff_get.mp hs) ⟨a, ha⟩ ⟨b, hb⟩ h1)
  · have : a = b := Nat.le_antisymm hab h1
    subst this
    exact le_refl _

/-- Soundness of `TextDict.Match` (no sortedness needed): a returned entry
comes from the lexicon and its key is exactly the query. -/
theorem TextDict.Match_key (d : TextDict) (word : Str) (e : DictEntry)
    (h : d.Match word = some e) : e ∈ d.lexicon ∧ e.Key = word := by
  unfold TextDict.Match at h
  rcases hidx : d.lexicon[sortSearch d.lexicon.length
      (fun i => decide (word ≤ keyAt d.lexicon i))]? with _ | e'
  · rw [hidx] at h
    simp at h
  · rw [hidx] at h
    by_cases hk : e'.Key = word
    · simp only [hk, if_pos rfl] at h
      cases h
      exact ⟨List.getElem?_mem hidx, hk⟩
    · simp [hk] at h

/-- Completeness of `TextDict.Match` on a sorted lexicon: a key present in
the lexicon is found. -/
theorem TextDict.Match_complete (l : List DictEntry) (hs : SortedUnique l)
    (word : Str) (hex : ∃ e ∈ l, e.Key = word) :
    ∃ e, (NewTextDict l).Match word = some e ∧ e.Key = word := by
  obtain ⟨e0, he0, hk0⟩ := hex
  obtain ⟨⟨m, hm⟩, hget⟩ := List.mem_iff_get.mp he0
  set f : Nat → Bool := fun i => decide (word ≤ keyAt l i) with hf
  have hmono : ∀ a b : Nat, a ≤ b → b < l.length → f a = true → f b = true := by
    intro a b hab hb ha
    simp only [hf, decide_eq_true_eq] at ha ⊢
    exact le_trans ha (keyAt_mono l hs a b hab hb)
  have hfm : f m = true := by
    simp only [hf, decide_eq_true_eq]
    rw [keyAt_eq_get l m hm, hget, hk0]
  set idx := sortSearch l.length f with hidxdef
  have hle : idx ≤ l.length := sortSearch_le l.length f
  have hlt : idx < l.length := by
    rcases Nat.lt_or_ge idx l.length with h1 | h1
    · exact h1
    · exfalso
      have : idx = l.length := Nat.le_antisymm hle h1
      have := sortSearch_min l.length f hmono m (by omega)
      rw [hfm] at this
      cases this
  have hidxm : idx ≤ m := by
    rcases Nat.lt_or_ge m idx with h1 | h1
    · exfalso
      have := sortSearch_min l.length f hmono m h1
      rw [hfm] at this
      cases this
    · exact h1
  have hkey : keyAt l idx = word := by
    have h1 : word ≤ keyAt l idx := by
      have := sortSearch_found l.length f hlt
      simpa [hf] using this
    have h2 : keyAt l idx ≤ keyAt l m := keyAt_mono l hs idx m hidxm hm
    rw [keyAt_eq_get l m hm, hget, hk0] at h2
    exact le_antisymm h2 h1
  refine ⟨l.get ⟨idx, hlt⟩, ?_, ?_⟩
  · have hgetidx : l[idx]? = some (l.get ⟨idx, hlt⟩) := by
      simp [List.getElem?_eq_getElem hlt]
    show (match l[sortSearch l.length fun i => decide (word ≤ keyAt l i)]? with
      | some e => if e.Key = word then some e else none
      | none => none) = _
    rw [← hf, ← hidxdef, hgetidx]
    rw [keyAt_eq_get l idx hlt, List.get_eq_getElem] at hkey
    simp [hkey]
  · rw [keyAt_eq_get l idx hlt] at hkey
    exact hkey

/-- Characterisation of the candidate-length loop of `MatchPrefix` over a
sorted, duplicate-free lexicon: a hit is an entry of the lexicon whose key
is the longest key of length at most `n` that is a prefix of `word`; a
miss means no key of length `1..n` is a prefix of `word`. -/
theorem TextDict.matchPfxLoop_spec (l : List DictEntry) (hs : SortedUnique l)
    (word : Str) : ∀ n : Nat, n ≤ word.length →
    (∀ e, (NewTextDict l).matchPfxLoop word n = some e →
        e ∈ l ∧ e.Key = word.take e.Key.length ∧ 1 ≤ e.Key.length ∧ e.Key.length ≤ n ∧
        (∀ e' ∈ l, e'.Key = word.take e'.Key.length → e'.Key.length ≤ n →
          e'.Key.length ≤ e.Key.length)) ∧
    ((NewTextDict l).matchPfxLoop word n = none →
        ∀ e' ∈ l, e'.Key = word.take e'.Key.length → 1 ≤ e'.Key.length →
          e'.Key.length ≤ n → False) := by
  intro n
  induction n with
  | zero =>
    intro _
    constructor
    · intro e he
      simp [TextDict.matchPfxLoop] at he
    · intro _ e' _ _ h1 h2
      omega
  | succ n ih =>
    intro hn
    have hlen : (word.take (n + 1)).length = n + 1 := by
      rw [List.length_take]
      omega
    constructor
    · intro e he
      rw [TextDict.matchPfxLoop] at he
      cases hmatch : (NewTextDict l).Match (word.take (n + 1)) with
      | some e1 =>
        rw [hmatch] at he
        cases he
        obtain ⟨hmem, hkey⟩ := TextDict.Match_key _ _ _ hmatch
        have hklen : e.Key.length = n + 1 := by rw [hkey, hlen]
        refine ⟨hmem, ?_, by omega, by omega, ?_⟩
        · rw [hklen, hkey]
        · intro e' _ _ hle
          omega
      | none =>
        rw [hmatch] at he
        obtain ⟨hmem, hpfx, h1, h2, hmax⟩ := ((ih (by omega)).1 e he)
        refine ⟨hmem, hpfx, h1, by omega, ?_⟩
        intro e' hmem' hpfx' hle'
        rcases Nat.lt_or_ge e'.Key.length (n + 1) with hl' | hl'
        · exact hmax e' hmem' hpfx' (by omega)
        · exfalso
          have hkeq : e'.Key = word.take (n + 1) := by
            have : e'.Key.length = n + 1 := by omega
            rw [hpfx', this]
          obtain ⟨e2, he2, _⟩ :=
            TextDict.Match_complete l hs (word.take (n + 1)) ⟨e', hmem', hkeq⟩
          rw [hmatch] at he2
          cases he2
    · intro he e' hmem' hpfx' h1 h2
      rw [TextDict.matchPfxLoop] at he
      cases hmatch : (NewTextDict l).Match (word.take (n + 1)) with
      | some e1 =>
        rw [hmatch] at he
        cases he
      | none =>
        rw [hmatch] at he
        rcases Nat.lt_or_ge e'.Key.length (n + 1) with hl' | hl'
        · exact (ih (by omega)).2 he e' hmem' hpfx' h1 (by omega)
        · have hkeq : e'.Key = word.take (n + 1) := by
            have : e'.Key.length = n + 1 := by omega
            rw [hpfx', this]
          obtain ⟨e2, he2, _⟩ :=
            TextDict.Match_complete l hs (word.take (n + 1)) ⟨e', hmem', hkeq⟩
          rw [hmatch] at he2
          cases he2

/-- A key that is a prefix of `word` is no longer than `word`. -/
theorem pfx_length_le (word k : Str) (h : k = word.take k.length) :
    k.length ≤ word.length := by
  have := congrArg List.length h
  rw [List.length_take] at this
  omega

/-- C9: For every TextDict built from a sorted, duplicate-free Lexicon,
`Match(k)` returns an entry whose `Key()` equals `k` whenever some entry
with key `k` is in the lexicon, and returns none whenever no entry has
key `k`. -/
theorem C9_match_exact (l : List DictEntry) (hs : SortedUnique l) (k : Str) :
    ((∃ e ∈ l, e.Key = k) → ∃ e, (NewTextDict l).Match k = some e ∧ e.Key = k) ∧
    ((∀ e ∈ l, e.Key ≠ k) → (NewTextDict l).Match k = none) := by
  constructor
  · exact fun hex => TextDict.Match_complete l hs k hex
  · intro habs
    cases hm : (NewTextDict l).Match k with
    | none => rfl
    | some e =>
      obtain ⟨hmem, hkey⟩ := TextDict.Match_key _ _ _ hm
      exact absurd hkey (habs e hmem)

/-- C9 witness: concrete evaluation on the two-entry lexicon. -/
theorem C9_match_exact_witness :
    ∃ e, (NewTextDict lexAB).Match [97] = some e ∧ e.Key = [97] :=
  (C9_match_exact lexAB (by decide) [97]).1 (by decide)

/-- C3 counterexample: over the sorted, duplicate-free lexicon whose only
entry has the empty key, the empty key is a dictionary key and a prefix of
the query "a", yet `MatchPrefix` returns none (candidate lengths stop at
1, so a zero-length key is never tried).  The claim, as stated, requires
an entry to be returned here. -/
theorem C3_counterexample :
    (∃ e ∈ [DictEntry.single [] [120]], e.Key = ([97] : Str).take e.Key.length) ∧
    SortedUnique [DictEntry.single [] [120]] ∧
    (NewTextDict [DictEntry.single [] [120]]).MatchPfx [97] = none := by
  refine ⟨⟨DictEntry.single [] [120], by decide, by decide⟩, by decide, by decide⟩

/-- C3 (amended): over a sorted, duplicate-free lexicon, `MatchPrefix(word)`
returns an entry whose key is the longest nonempty dictionary key that is a
prefix of `word`, and returns none when no nonempty dictionary key is a
prefix of `word`. -/
theorem C3_matchPfx_longest (l : List DictEntry) (hs : SortedUnique l) (word : Str) :
    ((∃ e' ∈ l, e'.Key ≠ [] ∧ e'.Key = word.take e'.Key.length) →
      ∃ e, (NewTextDict l).MatchPfx word = some e ∧ e ∈ l ∧ e.Key ≠ [] ∧
        e.Key = word.take e.Key.length ∧
        ∀ e' ∈ l, e'.Key = word.take e'.Key.length → e'.Key.length ≤ e.Key.length) ∧
    ((∀ e' ∈ l, e'.Key = word.take e'.Key.length → e'.Key = []) →
      (NewTextDict l).MatchPfx word = none) := by
  have hbound : min word.length (NewTextDict l).maxLength ≤ word.length :=
    Nat.min_le_left _ _
  have hspec := TextDict.matchPfxLoop_spec l hs word
    (min word.length (NewTextDict l).maxLength) hbound
  have hin : ∀ e' ∈ l, e'.Key = word.take e'.Key.length →
      e'.Key.length ≤ min word.length (NewTextDict l).maxLength := by
    intro e' hmem' hpfx'
    have h1 : e'.Key.length ≤ word.length := pfx_length_le word e'.Key hpfx'
    have h2 : e'.KeyLength ≤ (NewTextDict l).maxLength :=
      keyLength_le_maxLength l e' hmem'
    unfold DictEntry.KeyLength at h2
    omega
  constructor
  · rintro ⟨e', hmem', hne', hpfx'⟩
    cases hres : (NewTextDict l).MatchPfx word with
    | none =>
      exfalso
      have h1 : 1 ≤ e'.Key.length := by
        cases hk : e'.Key with
        | nil => exact absurd hk hne'
        | cons a t => simp [hk]
      exact hspec.2 hres e' hmem' hpfx' h1 (hin e' hmem' hpfx')
    | some e =>
      obtain ⟨hmem, hpfx, h1, _, hmax⟩ := hspec.1 e hres
      refine ⟨e, rfl, hmem, ?_, hpfx, ?_⟩
      · intro hk
        rw [hk] at h1
        simp at h1
      · intro e'' hmem'' hpfx''
        exact hmax e'' hmem'' hpfx'' (hin e'' hmem'' hpfx'')
  · intro hall
    cases hres : (NewTextDict l).MatchPfx word with
    | none => rfl
    | some e =>
      obtain ⟨hmem, hpfx, h1, _, _⟩ := hspec.1 e hres
      have := hall e hmem hpfx
      rw [this] at h1
      simp at h1

/-- C3 witness: on the concrete lexicon with keys "a", "aa", "aab" the
query "aac" has longest prefix key "aa". -/
theorem C3_matchPfx_longest_witness :
    ∃ e, (NewTextDict lexPfx).MatchPfx [97, 97, 99] = some e ∧ e ∈ lexPfx ∧
      e.Key ≠ [] ∧ e.Key = ([97, 97, 99] : Str).take e.Key.length ∧
      ∀ e' ∈ lexPfx, e'.Key = ([97, 97, 99] : Str).take e'.Key.length →
        e'.Key.length ≤ e.Key.length :=
  (C3_matchPfx_longest lexPfx (by decide) [97, 97, 99]).1
    ⟨DictEntry.single [97, 97] [66], by decide, by decide, by decide⟩

/-- Any hit of the `MatchPrefix` candidate loop has a key of at least one
byte (the loop stops at length 1, and a hit at length `l` has key
`word[:l]`). -/
theorem TextDict.matchPfxLoop_some_pos (d : TextDict) (word : Str) :
    ∀ n : Nat, n ≤ word.length → ∀ e, d.matchPfxLoop word n = some e →
      1 ≤ e.KeyLength := by
  intro n
  induction n with
  | zero =>
    intro _ e he
    simp [TextDict.matchPfxLoop] at he
  | succ n ih =>
    intro hn e he
    rw [TextDict.matchPfxLoop] at he
    cases hmatch : d.Match (word.take (n + 1)) with
    | some e1 =>
      rw [hmatch] at he
      cases he
      obtain ⟨_, hkey⟩ := TextDict.Match_key _ _ _ hmatch
      have := congrArg List.length hkey
      rw [List.length_take] at this
      unfold DictEntry.KeyLength
      omega
    | none =>
      rw [hmatch] at he
      exact ih (by omega) e he

/-- Any entry returned by `TextDict.MatchPrefix` has a nonempty key. -/
theorem TextDict.MatchPfx_some_pos (d : TextDict) (word : Str) (e : DictEntry)
    (he : d.MatchPfx word = some e) : 1 ≤ e.KeyLength :=
  TextDict.matchPfxLoop_some_pos d word (min word.length d.maxLength)
    (Nat.min_le_left _ _) e he

/-- Characterisation of the `MatchPrefix` scan over the members: either
the accumulator survives (and then no member strictly beats it), or the
result comes from the first member that strictly beats everything before
it and is never strictly beaten afterwards. -/
theorem DictGroup.matchPfxFold_spec (word : Str) :
    ∀ (ds : List TextDict) (b : Option DictEntry) (n : Nat),
      (DictGroup.matchPfxFold word ds (b, n) = (b, n) ∧
        ∀ k : Nat, ∀ hk : k < ds.length, ∀ e : DictEntry,
          ds[k].MatchPfx word = some e → e.KeyLength ≤ n) ∨
      (∃ j : Nat, ∃ hj : j < ds.length, ∃ e : DictEntry,
        ds[j].MatchPfx word = some e ∧
        DictGroup.matchPfxFold word ds (b, n) = (some e, e.KeyLength) ∧
        n < e.KeyLength ∧
        (∀ k : Nat, ∀ hk : k < ds.length, ∀ e' : DictEntry,
          ds[k].MatchPfx word = some e' → e'.KeyLength ≤ e.KeyLength) ∧
        (∀ k : Nat, ∀ hk : k < ds.length, k < j → ∀ e' : DictEntry,
          ds[k].MatchPfx word = some e' → e'.KeyLength < e.KeyLength)) := by
  intro ds
  induction ds with
  | nil =>
    intro b n
    left
    constructor
    · rfl
    · intro k hk
      simp at hk
  | cons d t ih =>
    intro b n
    cases hd : d.MatchPfx word with
    | none =>
      have hfold : DictGroup.matchPfxFold word (d :: t) (b, n) =
          DictGroup.matchPfxFold word t (b, n) := by
        simp [DictGroup.matchPfxFold, hd]
      rcases ih b n with ⟨h1, h2⟩ | ⟨j, hj, e, hje, hr, hn, hub, hstrict⟩
      · left
        refine ⟨by rw [hfold, h1], ?_⟩
        intro k hk e' he'
        match k with
        | 0 => rw [List.getElem_cons_zero, hd] at he'; cases he'
        | k + 1 =>
          rw [List.getElem_cons_succ] at he'
          exact h2 k (by simp only [List.length_cons] at hk; omega) e' he'
      · right
        refine ⟨j + 1, by simp only [List.length_cons]; omega, e, ?_, ?_, hn, ?_, ?_⟩
        · rw [List.getElem_cons_succ]
          exact hje
        · rw [hfold, hr]
        · intro k hk e' he'
          match k with
          | 0 => rw [List.getElem_cons_zero, hd] at he'; cases he'
          | k + 1 =>
            rw [List.getElem_cons_succ] at he'
            exact hub k (by simp only [List.length_cons] at hk; omega) e' he'
        · intro k hk hkj e' he'
          match k with
          | 0 => rw [List.getElem_cons_zero, hd] at he'; cases he'
          | k + 1 =>
            rw [List.getElem_cons_succ] at he'
            exact hstrict k (by simp only [List.length_cons] at hk; omega) (by omega) e' he'
    | some e0 =>
      by_cases hgt : e0.KeyLength > n
      · have hfold : DictGroup.matchPfxFold word (d :: t) (b, n) =
            DictGroup.matchPfxFold word t (some e0, e0.KeyLength) := by
          simp [DictGroup.matchPfxFold, hd, hgt]
        rcases ih (some e0) e0.KeyLength with ⟨h1, h2⟩ | ⟨j, hj, e, hje, hr, hn, hub, hstrict⟩
        · right
          refine ⟨0, by simp only [List.length_cons]; omega, e0, ?_, ?_, hgt, ?_, ?_⟩
          · rw [List.getElem_cons_zero]
            exact hd
          · rw [hfold, h1]
          · intro k hk e' he'
            match k with
            | 0 =>
              rw [List.getElem_cons_zero, hd] at he'
              cases he'
              exact le_refl _
            | k + 1 =>
              rw [List.getElem_cons_succ] at he'
              exact h2 k (by simp only [List.length_cons] at hk; omega) e' he'
          · intro k hk hkj
            omega
        · right
          refine ⟨j + 1, by simp only [List.length_cons]; omega, e, ?_, ?_, by omega, ?_, ?_⟩
          · rw [List.getElem_cons_succ]
            exact hje
          · rw [hfold, hr]
          · intro k hk e' he'
            match k with
            | 0 =>
              rw [List.getElem_cons_zero, hd] at he'
              cases he'
              omega
            | k + 1 =>
              rw [List.getElem_cons_succ] at he'
              exact hub k (by simp only [List.length_cons] at hk; omega) e' he'
          · intro k hk hkj e' he'
            match k with
            | 0 =>
              rw [List.getElem_cons_zero, hd] at he'
              cases he'
              omega
            | k + 1 =>
              rw [List.getElem_cons_succ] at he'
              exact hstrict k (by simp only [List.length_cons] at hk; omega) (by omega) e' he'
      · have hfold : DictGroup.matchPfxFold word (d :: t) (b, n) =
            DictGroup.matchPfxFold word t (b, n) := by
          simp [DictGroup.matchPfxFold, hd, hgt]
        rcases ih b n with ⟨h1, h2⟩ | ⟨j, hj, e, hje, hr, hn, hub, hstrict⟩
        · left
          refine ⟨by rw [hfold, h1], ?_⟩
          intro k hk e' he'
          match k with
          | 0 =>
            rw [List.getElem_cons_zero, hd] at he'
            cases he'
            omega
          | k + 1 =>
            rw [List.getElem_cons_succ] at he'
            exact h2 k (by simp only [List.length_cons] at hk; omega) e' he'
        · right
          refine ⟨j + 1, by simp only [List.length_cons]; omega, e, ?_, ?_, hn, ?_, ?_⟩
          · rw [List.getElem_cons_succ]
            exact hje
          · rw [hfold, hr]
          · intro k hk e' he'
            match k with
            | 0 =>
              rw [List.getElem_cons_zero, hd] at he'
              cases he'
              omega
            | k + 1 =>
              rw [List.getElem_cons_succ] at he'
              exact hub k (by simp only [List.length_cons] at hk; omega) e' he'
          · intro k hk hkj e' he'
            match k with
            | 0 =>
              rw [List.getElem_cons_zero, hd] at he'
              cases he'
              omega
            | k + 1 =>
              rw [List.getElem_cons_succ] at he'
              exact hstrict k (by simp only [List.length_cons] at hk; omega) (by omega) e' he'

/-- C5: For every DictGroup whose members are TextDicts over sorted,
duplicate-free Lexicons and every query word, `MatchPrefix(word)` returns
the prefix match with the greatest key byte-length across all members;
when several members tie at the greatest length, the entry from the member
appearing first in list order is returned; when every member misses, the
result is none. -/
theorem C5_group_matchPfx (ds : List TextDict)
    (_hs : ∀ d ∈ ds, SortedUnique d.lexicon) (word : Str) :
    ((∀ d ∈ ds, d.MatchPfx word = none) → DictGroup.MatchPfx ds word = none) ∧
    (∀ i : Nat, ∀ hi : i < ds.length, ∀ e0 : DictEntry,
      ds[i].MatchPfx word = some e0 →
      ∃ j : Nat, ∃ hj : j < ds.length, ∃ e : DictEntry,
        DictGroup.MatchPfx ds word = some e ∧
        ds[j].MatchPfx word = some e ∧
        (∀ k : Nat, ∀ hk : k < ds.length, ∀ e' : DictEntry,
          ds[k].MatchPfx word = some e' → e'.KeyLength ≤ e.KeyLength) ∧
        (∀ k : Nat, ∀ hk : k < ds.length, k < j → ∀ e' : DictEntry,
          ds[k].MatchPfx word = some e' → e'.KeyLength < e.KeyLength)) := by
  rcases DictGroup.matchPfxFold_spec word ds none 0 with
    ⟨h1, h2⟩ | ⟨j, hj, e, hje, hr, hn, hub, hstrict⟩
  · constructor
    · intro _
      unfold DictGroup.MatchPfx
      rw [h1]
    · intro i hi e0 he0
      exfalso
      have hpos := TextDict.MatchPfx_some_pos ds[i] word e0 he0
      have := h2 i hi e0 he0
      omega
  · constructor
    · intro hall
      have hmem : ds[j] ∈ ds := List.getElem_mem hj
      rw [hall ds[j] hmem] at hje
      cases hje
    · intro i hi e0 he0
      refine ⟨j, hj, e, ?_, hje, hub, hstrict⟩
      unfold DictGroup.MatchPfx
      rw [hr]

/-- C5 witness: on the group [A, B] and query "ab", B's two-byte match
"ab" beats A's one-byte match "a". -/
theorem C5_group_matchPfx_witness :
    ∃ j : Nat, ∃ hj : j < [dictA, dictB].length, ∃ e : DictEntry,
      DictGroup.MatchPfx [dictA, dictB] [97, 98] = some e ∧
      [dictA, dictB][j].MatchPfx [97, 98] = some e ∧
      (∀ k : Nat, ∀ hk : k < [dictA, dictB].length, ∀ e' : DictEntry,
        [dictA, dictB][k].MatchPfx [97, 98] = some e' → e'.KeyLength ≤ e.KeyLength) ∧
      (∀ k : Nat, ∀ hk : k < [dictA, dictB].length, k < j → ∀ e' : DictEntry,
        [dictA, dictB][k].MatchPfx [97, 98] = some e' → e'.KeyLength < e.KeyLength) :=
  (C5_group_matchPfx [dictA, dictB] (by decide) [97, 98]).2 0 (by decide)
    (DictEntry.single [97] [49]) (by decide)

/-- C7 counterexample: a dictionary whose only entry has the empty key.
`Match("")` succeeds and the entry's default value is "x", yet
`Convert("")` returns "" unchanged: the early return on empty phrases
fires before the dictionary is consulted, contradicting the claim that an
exact match is always substituted. -/
theorem C7_counterexample :
    (NewTextDict [DictEntry.single [] [120]]).Match [] =
        some (DictEntry.single [] [120]) ∧
    (DictEntry.single [] [120]).GetDefault = [120] ∧
    Conversion.Convert (NewTextDict [DictEntry.single [] [120]]) [] = [] ∧
    ([] : Str) ≠ [120] := by decide

/-- C7 (amended): for a nonempty segment text, an exact match substitutes
the matched entry's default value (first declared value, or the key for a
zero-value entry, per `GetDefault`); a miss returns the text unchanged;
the empty text is always returned unchanged, without consulting the
dictionary; no error is possible in any case (the function is total). -/
theorem C7_convert (d : TextDict) (phrase : Str) :
    (phrase ≠ [] → ∀ e, d.Match phrase = some e →
      Conversion.Convert d phrase = e.GetDefault) ∧
    (d.Match phrase = none → Conversion.Convert d phrase = phrase) ∧
    (phrase = [] → Conversion.Convert d phrase = phrase) := by
  refine ⟨?_, ?_, ?_⟩
  · intro hne e he
    unfold Conversion.Convert
    rw [if_neg (fun h => hne (List.length_eq_zero.mp h)), he]
  · intro he
    unfold Conversion.Convert
    split
    · rfl
    · rw [he]
  · intro h
    rw [h]
    rfl

/-- C7 witness: on the lexicon with entry "a" → "A", converting "a" yields
the entry's default value. -/
theorem C7_convert_witness :
    Conversion.Convert (NewTextDict lexAB) [97] =
      (DictEntry.single [97] [65]).GetDefault :=
  (C7_convert (NewTextDict lexAB) [97]).1 (by decide)
    (DictEntry.single [97] [65]) (by decide)

theorem NewMulti_key (k : Str) (vs : List Str) : (NewMulti k vs).Key = k := by
  match vs with
  | [] => rfl
  | [v] => rfl
  | v :: v2 :: t => rfl

theorem NewMulti_values (k : Str) (vs : List Str) : (NewMulti k vs).Values = vs := by
  match vs with
  | [] => rfl
  | [v] => rfl
  | v :: v2 :: t => rfl

theorem NewMulti_numValues (k : Str) (vs : List Str) :
    (NewMulti k vs).NumValues = vs.length := by
  match vs with
  | [] => rfl
  | [v] => rfl
  | v :: v2 :: t => simp [NewMulti, DictEntry.NumValues]

theorem NewMulti_default (k : Str) (v : Str) (vs : List Str) :
    (NewMulti k (v :: vs)).GetDefault = v := by
  match vs with
  | [] => rfl
  | v2 :: t => rfl

theorem takeWhile_no_tab (t : Str) (h : 9 ∉ t) :
    t.takeWhile (fun b => b != 9) = t := by
  induction t with
  | nil => rfl
  | cons b r ih =>
    have hb : b ≠ 9 := fun hb => h (hb ▸ List.mem_cons_self b r)
    simp only [List.takeWhile_cons]
    rw [if_pos (by simpa using hb)]
    rw [ih (fun hr => h (List.mem_cons_of_mem b hr))]

theorem takeWhile_tab_lt (t : Str) (h : 9 ∈ t) :
    (t.takeWhile (fun b => b != 9)).length < t.length := by
  induction t with
  | nil => cases h
  | cons b r ih =>
    by_cases hb : b = 9
    · subst hb
      simp [List.takeWhile_cons]
    · simp only [List.takeWhile_cons]
      rw [if_pos (by simpa using hb)]
      have hr : 9 ∈ r := by
        rcases List.mem_cons.mp h with h1 | h1
        · exact absurd h1.symm hb
        · exact h1
      have := ih hr
      simp only [List.length_cons]
      omega

theorem parseLexiconLine_nil (line : Str) (ht : trimRightCRLF line = []) :
    parseLexiconLine line = none := by
  unfold parseLexiconLine
  rw [ht]

theorem parseLexiconLine_cons (line : Str) (b : Nat) (r : Str)
    (ht : trimRightCRLF line = b :: r) :
    parseLexiconLine line =
      (if b = 35 then none
       else match splitFirstTab (b :: r) with
         | (key, none) => some (NewMulti key [])
         | (key, some rest) => some (NewMulti key (fieldsGo rest))) := by
  unfold parseLexiconLine
  rw [ht]

/-- C6 counterexample: the source line "a<TAB>b<TAB>c".  The code splits
the rest "b<TAB>c" on whitespace *including* the tab (`strings.Fields`
treats '\t' as whitespace), producing the two values "b" and "c"; the
claim, which says tab does not act as a separator inside the rest, would
give the single value "b<TAB>c". -/
theorem C6_counterexample :
    parseLexiconLine [97, 9, 98, 9, 99] =
      some (DictEntry.multi [97] [[98], [99]]) ∧
    ([[98], [99]] : List Str) ≠ [[98, 9, 99]] := by decide

/-- C6 (amended): for every lexicon source line free of the non-ASCII
Unicode space sequences (outside the byte-level model): lines that are
empty (after CR/LF stripping) or start with '#' are skipped and nothing
else is; if the stripped line contains no tab, the whole stripped line is
the key and the entry has zero values; if a tab is present, the part
before the first tab is the key and the rest is split on runs of
whitespace — tab included — into the ordered value list, whose first
token is the entry's default value; no line ever causes parsing to fail
(the embedding of the per-line processing is a total function). -/
theorem C6_parse_line (line : Str)
    (_hascii : ∀ p ∈ nonAsciiSpaceSeqs, ¬ p <:+: line) :
    (parseLexiconLine line = none ↔
      (trimRightCRLF line = [] ∨ ∃ r, trimRightCRLF line = 35 :: r)) ∧
    (trimRightCRLF line ≠ [] → (trimRightCRLF line).head? ≠ some 35 →
      9 ∉ trimRightCRLF line →
      ∃ e, parseLexiconLine line = some e ∧ e.Key = trimRightCRLF line ∧
        e.NumValues = 0 ∧ e.Values = []) ∧
    (trimRightCRLF line ≠ [] → (trimRightCRLF line).head? ≠ some 35 →
      9 ∈ trimRightCRLF line →
      ∃ e, parseLexiconLine line = some e ∧
        e.Key = (trimRightCRLF line).takeWhile (fun b => b != 9) ∧
        e.Values = fieldsGo ((trimRightCRLF line).drop (e.Key.length + 1)) ∧
        (∀ v vs, e.Values = v :: vs → e.GetDefault = v)) := by
  refine ⟨?_, ?_, ?_⟩
  · constructor
    · intro hnone
      cases ht : trimRightCRLF line with
      | nil => exact Or.inl rfl
      | cons b r =>
        rw [parseLexiconLine_cons line b r ht] at hnone
        by_cases hb : b = 35
        · exact Or.inr ⟨r, by rw [hb]⟩
        · rw [if_neg hb] at hnone
          exfalso
          rcases hsp : splitFirstTab (b :: r) with ⟨key, restOpt⟩
          rw [hsp] at hnone
          cases restOpt <;> simp at hnone
    · intro h
      rcases h with h | ⟨r, h⟩
      · exact parseLexiconLine_nil line h
      · rw [parseLexiconLine_cons line 35 r h]
        simp
  · intro hne hnc hnotab
    cases ht : trimRightCRLF line with
    | nil => exact absurd ht hne
    | cons b r =>
      have hb : b ≠ 35 := fun hbe => hnc (by rw [ht, hbe]; rfl)
      have hpre : (b :: r).takeWhile (fun x => x != 9) = b :: r :=
        takeWhile_no_tab (b :: r) (ht ▸ hnotab)
      have hsp : splitFirstTab (b :: r) = (b :: r, none) := by
        unfold splitFirstTab
        rw [hpre]
        simp
      refine ⟨NewMulti (b :: r) [], ?_, ?_, ?_, ?_⟩
      · rw [parseLexiconLine_cons line b r ht, if_neg hb, hsp]
      · rw [NewMulti_key]
      · rw [NewMulti_numValues]
        rfl
      · rw [NewMulti_values]
  · intro hne hnc htab
    cases ht : trimRightCRLF line with
    | nil => exact absurd ht hne
    | cons b r =>
      have hb : b ≠ 35 := fun hbe => hnc (by rw [ht, hbe]; rfl)
      have hlt : ((b :: r).takeWhile (fun x => x != 9)).length < (b :: r).length :=
        takeWhile_tab_lt (b :: r) (ht ▸ htab)
      have hsp : splitFirstTab (b :: r) =
          ((b :: r).takeWhile (fun x => x != 9),
           some ((b :: r).drop (((b :: r).takeWhile (fun x => x != 9)).length + 1))) := by
        unfold splitFirstTab
        rw [if_neg (by omega)]
      refine ⟨NewMulti ((b :: r).takeWhile (fun x => x != 9))
        (fieldsGo ((b :: r).drop (((b :: r).takeWhile (fun x => x != 9)).length + 1))),
        ?_, ?_, ?_, ?_⟩
      · rw [parseLexiconLine_cons line b r ht, if_neg hb, hsp]
      · rw [NewMulti_key]
      · rw [NewMulti_values, NewMulti_key]
      · intro v vs hv
        rw [NewMulti_values] at hv
        rw [hv, NewMulti_default]

/-- C6 witness: the line "ab<TAB>cd ef<CR><LF>" parses to key "ab" with
the two values "cd" and "ef", and default value "cd". -/
theorem C6_parse_line_witness :
    ∃ e, parseLexiconLine [97, 98, 9, 99, 100, 32, 101, 102, 13, 10] = some e ∧
      e.Key = (trimRightCRLF [97, 98, 9, 99, 100, 32, 101, 102, 13, 10]).takeWhile
        (fun b => b != 9) ∧
      e.Values = fieldsGo ((trimRightCRLF [97, 98, 9, 99, 100, 32, 101, 102, 13, 10]).drop
        (e.Key.length + 1)) ∧
      (∀ v vs, e.Values = v :: vs → e.GetDefault = v) :=
  (C6_parse_line [97, 98, 9, 99, 100, 32, 101, 102, 13, 10] (by decide)).2.2
    (by decide) (by decide) (by decide)

theorem mkManaged_nil : mkManaged [] = NewSegments := rfl

theorem mkManaged_Length (ys : List Str) : (mkManaged ys).Length = ys.length := by
  simp [mkManaged, Segments.Length]

theorem mkManaged_At (ys : List Str) (i : Nat) : (mkManaged ys).At i = ys.getD i [] := by
  unfold Segments.At mkManaged
  rcases Nat.lt_or_ge i ys.length with h | h
  · simp [List.getElem?_map, List.getElem?_range, h, List.getD,
      List.getElem?_eq_getElem, List.length_map, List.length_range]
  · have h1 : ((List.range ys.length).map (fun i => (i, true)))[i]? = none := by
      rw [List.getElem?_eq_none]
      simp [h]
    have h2 : ys[i]? = none := by
      rw [List.getElem?_eq_none h]
    simp [h1, List.getD, h2]

theorem mkManaged_AddManaged (ys : List Str) (v : Str) :
    (mkManaged ys).AddManaged v = mkManaged (ys ++ [v]) := by
  unfold mkManaged Segments.AddManaged
  simp [List.range_succ]

theorem foldl_addManaged (g : Str → Str) :
    ∀ (xs ys : List Str),
      xs.foldl (fun result seg => result.AddManaged (g seg)) (mkManaged ys) =
        mkManaged (ys ++ xs.map g) := by
  intro xs
  induction xs with
  | nil => intro ys; simp
  | cons x t ih =>
    intro ys
    simp only [List.foldl_cons]
    rw [mkManaged_AddManaged, ih]
    simp

/-- An out-of-range `At` read is the empty string. -/
theorem Segments.At_oob (s : Segments) (i : Nat) (h : s.Length ≤ i) : s.At i = [] := by
  unfold Segments.At
  have : s.indexes[i]? = none := by
    rw [List.getElem?_eq_none]
    exact h
  rw [this]

/-- `toList` reads back positions 0 .. Length-1. -/
theorem Segments.toList_getD (s : Segments) (i : Nat) (h : i < s.Length) :
    s.toList.getD i [] = s.At i := by
  unfold Segments.toList
  simp [List.getD, List.getElem?_map, List.getElem?_range, h,
    List.getElem?_eq_getElem, List.length_map, List.length_range]

/-- C8: every conversion step maps a segment sequence to a sequence of
exactly the same number of segments, each output segment being the
per-segment conversion of the corresponding input segment (never a split
or merge); consequently a whole conversion chain preserves the segment
count produced by the initial segmentation. -/
theorem C8_chain_preserves_segments (segs : Segments) :
    (∀ d : TextDict,
      (Conversion.ConvertSegments d segs).Length = segs.Length ∧
      ∀ i : Nat, (Conversion.ConvertSegments d segs).At i =
        Conversion.Convert d (segs.At i)) ∧
    (∀ chain : List TextDict,
      (ConversionChain.Convert chain segs).Length = segs.Length) := by
  have hconv : ∀ (d : TextDict) (s : Segments),
      Conversion.ConvertSegments d s = mkManaged (s.toList.map (Conversion.Convert d)) := by
    intro d s
    unfold Conversion.ConvertSegments
    rw [← mkManaged_nil, foldl_addManaged]
    simp
  have hlen : ∀ (d : TextDict) (s : Segments),
      (Conversion.ConvertSegments d s).Length = s.Length := by
    intro d s
    rw [hconv, mkManaged_Length]
    simp [Segments.toList]
  constructor
  · intro d
    refine ⟨hlen d segs, ?_⟩
    intro i
    rw [hconv, mkManaged_At]
    rcases Nat.lt_or_ge i segs.Length with h | h
    · have hmap : (segs.toList.map (Conversion.Convert d)).getD i [] =
          Conversion.Convert d (segs.toList.getD i []) := by
        have hi : i < segs.toList.length := by
          simpa [Segments.toList] using h
        simp [List.getD, List.getElem?_eq_getElem, hi, List.length_map,
          List.getElem?_map]
      rw [hmap, Segments.toList_getD segs i h]
    · have h1 : (segs.toList.map (Conversion.Convert d)).getD i [] = [] := by
        have : (segs.toList.map (Conversion.Convert d))[i]? = none := by
          rw [List.getElem?_eq_none]
          simpa [Segments.toList] using h
        simp [List.getD, this]
      rw [h1, Segments.At_oob segs i h]
      rfl
  · intro chain
    induction chain generalizing segs with
    | nil => rfl
    | cons d t ih =>
      show (ConversionChain.Convert t (Conversion.ConvertSegments d segs)).Length = _
      rw [ih (Conversion.ConvertSegments d segs), hlen]

theorem driveGo_drop (entries : List DictEntry) :
    ∀ fuel index : Nat, entries.length - index ≤ fuel →
      LexiconIterator.driveGo fuel ⟨entries, index⟩ = entries.drop (index + 1) := by
  intro fuel
  induction fuel with
  | zero =>
    intro index h
    have : entries.drop (index + 1) = [] := by
      rw [List.drop_eq_nil_iff]
      omega
    rw [this]
    rfl
  | succ fuel ih =>
    intro index h
    by_cases hlt : index + 1 < entries.length
    · have hnext : (LexiconIterator.Next ⟨entries, index⟩) =
          (true, ⟨entries, index + 1⟩) := by
        simp [LexiconIterator.Next, hlt]
      have hval : (LexiconIterator.Value ⟨entries, index + 1⟩) =
          some (entries.get ⟨index + 1, hlt⟩) := by
        simp [LexiconIterator.Value, List.getElem?_eq_getElem hlt]
      show (match LexiconIterator.Next ⟨entries, index⟩ with
        | (true, it') =>
          match it'.Value with
          | some e => e :: LexiconIterator.driveGo fuel it'
          | none => []
        | (false, _) => []) = _
      rw [hnext]
      show (match LexiconIterator.Value ⟨entries, index + 1⟩ with
        | some e => e :: LexiconIterator.driveGo fuel ⟨entries, index + 1⟩
        | none => []) = _
      rw [hval, ih (index + 1) (by omega)]
      rw [List.drop_eq_getElem_cons hlt]
      rfl
    · have hnext : (LexiconIterator.Next ⟨entries, index⟩) =
          (false, ⟨entries, index + 1⟩) := by
        simp [LexiconIterator.Next]
        omega
      show (match LexiconIterator.Next ⟨entries, index⟩ with
        | (true, it') =>
          match it'.Value with
          | some e => e :: LexiconIterator.driveGo fuel it'
          | none => []
        | (false, _) => []) = _
      rw [hnext]
      have : entries.drop (index + 1) = [] := by
        rw [List.drop_eq_nil_iff]
        omega
      rw [this]

/-- C10: driving the iterator of a lexicon with n ≥ 1 entries with the
usual Next()/Value() loop yields exactly the entries at indices 1..n-1 in
order (`drop 1` of the entry list); the entry at index 0 is never
yielded, and a single-entry lexicon yields no entries at all. -/
theorem C10_iterator_skips_first (entries : List DictEntry)
    (h : 1 ≤ entries.length) :
    (Lexicon.Iterator entries).drive = entries.drop 1 ∧
    (entries.length = 1 → (Lexicon.Iterator entries).drive = []) := by
  have h1 : (Lexicon.Iterator entries).drive = entries.drop 1 := by
    unfold LexiconIterator.drive Lexicon.Iterator
    exact driveGo_drop entries entries.length 0 (by omega)
  refine ⟨h1, ?_⟩
  intro hone
  rw [h1, List.drop_eq_nil_iff]
  omega

/-- C10 witness: the two-entry lexicon yields exactly its second entry. -/
theorem C10_iterator_skips_first_witness :
    (Lexicon.Iterator lexAB).drive = lexAB.drop 1 :=
  (C10_iterator_skips_first lexAB (by decide)).1

/-- Any hit of `findLongestMatch` is a dictionary entry whose key is a
nonempty in-bounds slice of the text at the current position (for a
dictionary, such as any `TextDict`, whose hits carry the queried word as
key). -/
theorem findLongestMatch_spec (m : Str → Option DictEntry) (text : Str) (start : Nat)
    (hm : ∀ w e, m w = some e → e.Key = w) :
    ∀ n e, findLongestMatch m text start n = some e →
      ∃ l, 1 ≤ l ∧ l ≤ n ∧ start + l ≤ text.length ∧
        e.Key = (text.drop start).take l := by
  intro n
  induction n with
  | zero =>
    intro e he
    cases he
  | succ n ih =>
    intro e he
    rw [findLongestMatch] at he
    by_cases hov : start + (n + 1) > text.length
    · rw [if_pos hov] at he
      obtain ⟨l, h1, h2, h3, h4⟩ := ih e he
      exact ⟨l, h1, by omega, h3, h4⟩
    · rw [if_neg hov] at he
      cases hmm : m ((text.drop start).take (n + 1)) with
      | some e1 =>
        rw [hmm] at he
        cases he
        exact ⟨n + 1, by omega, le_refl _, by omega, hm _ _ hmm⟩
      | none =>
        rw [hmm] at he
        obtain ⟨l, h1, h2, h3, h4⟩ := ih e he
        exact ⟨l, h1, by omega, h3, h4⟩

/-- Coverage of the segmentation loop: whenever it returns a segment
list (no panic), the concatenation of the segments is exactly the text
from the current position on. -/
theorem segmentLoop_join (m : Str → Option DictEntry) (maxKeyLen : Nat) (text : Str)
    (hm : ∀ w e, m w = some e → e.Key = w) :
    ∀ fuel position segs, segmentLoop m maxKeyLen text fuel position = some segs →
      segs.flatten = text.drop position := by
  intro fuel
  induction fuel with
  | zero =>
    intro position segs hs
    rw [segmentLoop] at hs
    by_cases hp : position < text.length
    · rw [if_pos hp] at hs
      cases hs
    · rw [if_neg hp] at hs
      cases hs
      rw [List.drop_eq_nil_iff.mpr (by omega)]
      rfl
  | succ fuel ih =>
    intro position segs hs
    rw [segmentLoop] at hs
    by_cases hp : position < text.length
    · rw [if_pos hp] at hs
      cases hfl : findLongestMatch m text position maxKeyLen with
      | some e =>
        rw [hfl] at hs
        simp only at hs
        obtain ⟨rest, hrest, hsegs⟩ := Option.map_eq_some'.mp hs
        obtain ⟨l, h1, h2, h3, h4⟩ :=
          findLongestMatch_spec m text position hm maxKeyLen e hfl
        have hkl : e.KeyLength = l := by
          unfold DictEntry.KeyLength
          rw [h4, List.length_take, List.length_drop]
          omega
        rw [← hsegs, List.flatten_cons]
        rw [ih (position + e.KeyLength) rest hrest, hkl, h4]
        have hdd : text.drop (position + l) = (text.drop position).drop l := by
          rw [List.drop_drop]
        rw [hdd, List.take_append_drop]
      | none =>
        rw [hfl] at hs
        simp only at hs
        set charLen := (if nextUTF8CharLength text position = 0 then 1
          else nextUTF8CharLength text position) with hcl
        by_cases hbnd : position + charLen ≤ text.length
        · rw [if_pos hbnd] at hs
          obtain ⟨rest, hrest, hsegs⟩ := Option.map_eq_some'.mp hs
          rw [← hsegs, List.flatten_cons]
          rw [ih (position + charLen) rest hrest]
          have hdd : text.drop (position + charLen) = (text.drop position).drop charLen := by
            rw [List.drop_drop]
          rw [hdd, List.take_append_drop]
        · rw [if_neg hbnd] at hs
          cases hs
    · rw [if_neg hp] at hs
      cases hs
      rw [List.drop_eq_nil_iff.mpr (by omega)]
      rfl

/-- C1: on the one-byte input 0xE4 — the first byte of a three-byte UTF-8
sequence, with the continuation bytes missing — `nextUTF8CharLength`
returns 3 from the lead byte alone and the Go code slices `text[0:3]` on
a 1-byte string: a runtime panic (slice bounds out of range), modelled as
`none`.  No segment list is produced at all, so concatenating "all
segments" cannot reproduce the input; the claim promises lossless
coverage for every input including invalid UTF-8. -/
theorem C1_panic_on_truncated_utf8 :
    MaxMatchSegment (NewTextDict []) [228] = none := by decide

/-- C2: on the input 0xE4 0x41 0x41 — structurally invalid UTF-8, since
0x41 can never be a continuation byte — the code consumes THREE raw bytes
as a single owned segment (the length is decided by the lead byte alone,
with no continuation validation), instead of the exactly one raw byte the
claim requires for a structurally invalid sequence; and on the input 0xE4
alone the slice `text[0:3]` leaves the bounds of the text (see the C1
evaluation), contradicting the claim's in-bounds guarantee. -/
theorem C2_invalid_consumes_three_bytes :
    MaxMatchSegment (NewTextDict []) [228, 65, 65] = some [[228, 65, 65]] := by decide

end OpenCCGo
